import Mathlib

/-!
Verification of the ellipse rasterization core of the `prototype` 2D drawing
library.  The definitions below are shallow embeddings of the Go functions in
`draw/window_draw.go` (the integer midpoint-ellipse rasterizer `ellipsePoints`
and the `DrawEllipse` dispatcher), of the degenerate-case guards of the
Direct3D9 backend's `ellipse` (part_001), and of the scanline-span consumer
loop of the wasm backend's `FillEllipse` (`draw/window_wasm.go`).  Go machine
integers are modelled as unbounded `Int` (the algorithm's intermediate values
stay far below 2^63 for the box sizes a window can show, and every claim is
about the algorithm, not overflow), and Go's truncated-toward-zero integer
division is modelled explicitly by `goDiv`.  The two `for` loops of
`ellipsePoints` are modelled with explicit fuel and an `Option` result:
`none` means the fuel ran out with the loop guard still true, and the fuel
supplied by `ellipsePoints` is proven sufficient whenever the Go loop
terminates, so `ellipsePoints … = none` holds exactly on the inputs where the
Go code loops forever.

The shared scanline rasterizer `ellipseOutline` / `ellipseArea` consumed by
the current Direct3D9 and wasm backends is declared in a file of the
repository that is not under `src/` (only its callers are); those two
functions are modelled from the spec, as marked in their doc comments.
-/

namespace Prototype

/-- `type point struct{ x, y int }` from `draw/window_draw.go`. -/
structure point where
  x : Int
  y : Int
deriving DecidableEq, Repr

/-- Go's integer division truncates toward zero (`a / b` on Go `int`s). -/
def goDiv (a b : Int) : Int := Int.tdiv a b

/-- The four symmetric appends performed by the local closure `addPoint`
inside `ellipsePoints` (`draw/window_draw.go:63-68`), in append order. -/
def addPoint (centerX centerY x y : Int) : List point :=
  [⟨centerX + x, centerY + y⟩, ⟨centerX + x, centerY - y⟩,
   ⟨centerX - x, centerY + y⟩, ⟨centerX - x, centerY - y⟩]

/-- First `for` loop of `ellipsePoints` (`draw/window_draw.go:77-84`):
`for x, y, sigma := 0, yRadius, 2*b2+a2*(1-2*yRadius); b2*x <= a2*y; x++`.
Returns the list of `(x, y)` offsets passed to `addPoint`, one per iteration,
or `none` when the fuel is exhausted with the loop guard still true. -/
def loop1F (a2 b2 fa2 : Int) : Nat → Int → Int → Int → Option (List (Int × Int))
  | 0, x, y, _ => if b2 * x ≤ a2 * y then none else some []
  | Nat.succ fuel, x, y, sigma =>
    if b2 * x ≤ a2 * y then
      Option.map (fun l => (x, y) :: l)
        (loop1F a2 b2 fa2 fuel (x + 1)
          (if 0 ≤ sigma then y - 1 else y)
          ((if 0 ≤ sigma then sigma + fa2 * (1 - y) else sigma) + b2 * (4 * x + 6)))
    else some []

/-- Second `for` loop of `ellipsePoints` (`draw/window_draw.go:86-93`):
`for x, y, sigma := xRadius, 0, 2*a2+b2*(1-2*xRadius); a2*y <= b2*x; y++`. -/
def loop2F (a2 b2 fb2 : Int) : Nat → Int → Int → Int → Option (List (Int × Int))
  | 0, x, y, _ => if a2 * y ≤ b2 * x then none else some []
  | Nat.succ fuel, x, y, sigma =>
    if a2 * y ≤ b2 * x then
      Option.map (fun l => (x, y) :: l)
        (loop2F a2 b2 fb2 fuel
          (if 0 ≤ sigma then x - 1 else x) (y + 1)
          ((if 0 ≤ sigma then sigma + fb2 * (1 - x) else sigma) + a2 * (4 * y + 6)))
    else some []

/-- Loop portion of `ellipsePoints` (`draw/window_draw.go:60-95`), after the
degenerate-size guards, in terms of the Go locals `centerX`, `centerY`,
`xRadius` and `yRadius` (the products `xRadius*xRadius` and
`yRadius*yRadius` are the Go locals `a2` and `b2`).  The result is the list
of points appended by the two loops in order (each iteration appends its four
`addPoint` images). -/
def ellipsePointsCore (centerX centerY xRadius yRadius : Int) : Option (List point) :=
  match
    loop1F (xRadius * xRadius) (yRadius * yRadius) (4 * (xRadius * xRadius))
      ((xRadius * xRadius * yRadius).toNat + 2) 0 yRadius
      (2 * (yRadius * yRadius) + xRadius * xRadius * (1 - 2 * yRadius)),
    loop2F (xRadius * xRadius) (yRadius * yRadius) (4 * (yRadius * yRadius))
      ((yRadius * yRadius * xRadius).toNat + 2) xRadius 0
      (2 * (xRadius * xRadius) + yRadius * yRadius * (1 - 2 * xRadius)) with
  | some l1, some l2 =>
      some ((l1 ++ l2).flatMap (fun q => addPoint centerX centerY q.1 q.2))
  | _, _ => none

/-- `ellipsePoints` from `draw/window_draw.go:52-96`. -/
def ellipsePoints (left top width height : Int) : Option (List point) :=
  if width = 0 ∨ height = 0 then some []
  else if width = 1 ∧ height = 1 then some [⟨left, top⟩, ⟨left, top⟩]
  else
    ellipsePointsCore (left + goDiv width 2) (top + goDiv height 2)
      (goDiv width 2) (goDiv height 2)

/-- Geometric draw commands a backend issues (color plumbing omitted: every
command of one `DrawEllipse`/`FillEllipse` call uses the single color
argument). `line` is the native line primitive (`0, 1` are from/to). -/
inductive cmd where
  | line : Int → Int → Int → Int → cmd
  | pt : Int → Int → cmd
deriving DecidableEq, Repr

/-- `DrawEllipse` from `draw/window_draw.go:35-50`: the sequence of geometric
primitives issued for the given bounding box. -/
def DrawEllipse (x y width height : Int) : Option (List cmd) :=
  if width = 1 then some [cmd.line x y x (y + height - 1)]
  else if height = 1 then some [cmd.line x y (x + width - 1) y]
  else (ellipsePoints x y width height).map (List.map (fun p => cmd.pt p.x p.y))

/-- The degenerate-case guards of the Direct3D9 backend's `ellipse`
(part_001:747-764).  The general case tessellates the ellipse with
`math.Sincos` into float32 GPU primitives; that branch is outside this
integer embedding and is mapped to `none` (no claim settled here depends on
it: the claims about this function only concern the guard branches). -/
def d3d9Ellipse (x y width height : Int) : Option (List cmd) :=
  if width ≤ 0 ∨ height ≤ 0 then some []
  else if width = 1 ∧ height = 1 then some [cmd.pt x y]
  else if width = 1 then some [cmd.line x y x (y + height - 1)]
  else if height = 1 then some [cmd.line x y (x + width - 1) y]
  else none

example : goDiv (-3) 2 = -1 := by decide
example : goDiv 3 2 = 1 := by decide
example : ellipsePoints 3 4 1 1 = some [⟨3, 4⟩, ⟨3, 4⟩] := by decide
example : ellipsePoints 5 5 0 5 = some [] := by decide

lemma goDiv_two_pos {w : Int} (h : 2 ≤ w) : 1 ≤ goDiv w 2 := by
  unfold goDiv
  rw [Int.tdiv_eq_ediv (by omega) (by omega)]
  omega

lemma loop1F_total (a2 b2 fa2 : Int) (ha : 0 ≤ a2) (hb : 1 ≤ b2) :
    ∀ (fuel : Nat) (x y sigma : Int), a2 * y - b2 * x < (fuel : Int) →
      ∃ l, loop1F a2 b2 fa2 fuel x y sigma = some l := by
  intro fuel
  induction fuel with
  | zero =>
    intro x y sigma hf
    push_cast at hf
    exact ⟨[], by simp only [loop1F]; rw [if_neg (by intro hg; linarith)]⟩
  | succ n ih =>
    intro x y sigma hf
    push_cast at hf
    by_cases hg : b2 * x ≤ a2 * y
    · have hy'le : (if 0 ≤ sigma then y - 1 else y) ≤ y := by split <;> omega
      have hmul : a2 * (if 0 ≤ sigma then y - 1 else y) ≤ a2 * y :=
        mul_le_mul_of_nonneg_left hy'le ha
      have hexp : b2 * (x + 1) = b2 * x + b2 := by ring
      obtain ⟨l, hl⟩ := ih (x + 1) (if 0 ≤ sigma then y - 1 else y)
        ((if 0 ≤ sigma then sigma + fa2 * (1 - y) else sigma) + b2 * (4 * x + 6))
        (by linarith)
      exact ⟨(x, y) :: l, by simp only [loop1F]; rw [if_pos hg, hl]; rfl⟩
    · exact ⟨[], by simp only [loop1F]; rw [if_neg hg]⟩

lemma loop2F_total (a2 b2 fb2 : Int) (ha : 1 ≤ a2) (hb : 0 ≤ b2) :
    ∀ (fuel : Nat) (x y sigma : Int), b2 * x - a2 * y < (fuel : Int) →
      ∃ l, loop2F a2 b2 fb2 fuel x y sigma = some l := by
  intro fuel
  induction fuel with
  | zero =>
    intro x y sigma hf
    push_cast at hf
    exact ⟨[], by simp only [loop2F]; rw [if_neg (by intro hg; linarith)]⟩
  | succ n ih =>
    intro x y sigma hf
    push_cast at hf
    by_cases hg : a2 * y ≤ b2 * x
    · have hx'le : (if 0 ≤ sigma then x - 1 else x) ≤ x := by split <;> omega
      have hmul : b2 * (if 0 ≤ sigma then x - 1 else x) ≤ b2 * x :=
        mul_le_mul_of_nonneg_left hx'le hb
      have hexp : a2 * (y + 1) = a2 * y + a2 := by ring
      obtain ⟨l, hl⟩ := ih (if 0 ≤ sigma then x - 1 else x) (y + 1)
        ((if 0 ≤ sigma then sigma + fb2 * (1 - x) else sigma) + a2 * (4 * y + 6))
        (by linarith)
      exact ⟨(x, y) :: l, by simp only [loop2F]; rw [if_pos hg, hl]; rfl⟩
    · exact ⟨[], by simp only [loop2F]; rw [if_neg hg]⟩

lemma mem_addPoint_reflX {cx cy u v : Int} {p : point} (h : p ∈ addPoint cx cy u v) :
    (⟨2 * cx - p.x, p.y⟩ : point) ∈ addPoint cx cy u v := by
  simp only [addPoint, List.mem_cons, List.not_mem_nil, or_false] at h ⊢
  rcases h with h | h | h | h <;> subst h <;> simp [point.mk.injEq] <;> omega

lemma mem_addPoint_reflY {cx cy u v : Int} {p : point} (h : p ∈ addPoint cx cy u v) :
    (⟨p.x, 2 * cy - p.y⟩ : point) ∈ addPoint cx cy u v := by
  simp only [addPoint, List.mem_cons, List.not_mem_nil, or_false] at h ⊢
  rcases h with h | h | h | h <;> subst h <;> simp [point.mk.injEq] <;> omega

lemma ellipsePointsCore_symmetric {cx cy xR yR : Int} {pts : List point} {p : point}
    (hE : ellipsePointsCore cx cy xR yR = some pts) (hp : p ∈ pts) :
    (⟨2 * cx - p.x, p.y⟩ : point) ∈ pts ∧ (⟨p.x, 2 * cy - p.y⟩ : point) ∈ pts := by
  unfold ellipsePointsCore at hE
  split at hE
  · cases hE
    constructor
    · obtain ⟨q, hq, hpq⟩ := List.mem_flatMap.mp hp
      exact List.mem_flatMap.mpr ⟨q, hq, mem_addPoint_reflX hpq⟩
    · obtain ⟨q, hq, hpq⟩ := List.mem_flatMap.mp hp
      exact List.mem_flatMap.mpr ⟨q, hq, mem_addPoint_reflY hpq⟩
  · exact Option.noConfusion hE

lemma loop1F_succ (a2 b2 fa2 : Int) (fuel : Nat) (x y sigma : Int)
    (hg : b2 * x ≤ a2 * y) :
    loop1F a2 b2 fa2 (fuel + 1) x y sigma =
      Option.map (fun l => (x, y) :: l)
        (loop1F a2 b2 fa2 fuel (x + 1)
          (if 0 ≤ sigma then y - 1 else y)
          ((if 0 ≤ sigma then sigma + fa2 * (1 - y) else sigma) + b2 * (4 * x + 6))) := by
  simp only [loop1F]
  rw [if_pos hg]

lemma ellipsePointsCore_head (cx cy : Int) {xR yR : Int} (hx : 1 ≤ xR) (hy : 1 ≤ yR) :
    ∃ rest, ellipsePointsCore cx cy xR yR =
      some (⟨cx, cy + yR⟩ :: ⟨cx, cy - yR⟩ :: ⟨cx, cy + yR⟩ :: ⟨cx, cy - yR⟩ :: rest) := by
  have ha2 : 1 ≤ xR * xR := by nlinarith
  have hb2 : 1 ≤ yR * yR := by nlinarith
  have htn := Int.self_le_toNat (xR * xR * yR)
  obtain ⟨l1, hl1⟩ := loop1F_total (xR * xR) (yR * yR) (4 * (xR * xR))
    (by linarith) hb2 ((xR * xR * yR).toNat + 1) (0 + 1)
    (if 0 ≤ 2 * (yR * yR) + xR * xR * (1 - 2 * yR) then yR - 1 else yR)
    ((if 0 ≤ 2 * (yR * yR) + xR * xR * (1 - 2 * yR) then
        2 * (yR * yR) + xR * xR * (1 - 2 * yR) + 4 * (xR * xR) * (1 - yR)
      else 2 * (yR * yR) + xR * xR * (1 - 2 * yR)) + yR * yR * (4 * 0 + 6))
    (by
      have h1 : (if 0 ≤ 2 * (yR * yR) + xR * xR * (1 - 2 * yR) then yR - 1 else yR) ≤ yR := by
        split <;> omega
      have h2 : xR * xR * (if 0 ≤ 2 * (yR * yR) + xR * xR * (1 - 2 * yR) then yR - 1 else yR)
          ≤ xR * xR * yR := mul_le_mul_of_nonneg_left h1 (by linarith)
      push_cast
      linarith)
  obtain ⟨l2, hl2⟩ := loop2F_total (xR * xR) (yR * yR) (4 * (yR * yR))
    ha2 (by linarith) ((yR * yR * xR).toNat + 2) xR 0
    (2 * (xR * xR) + yR * yR * (1 - 2 * xR))
    (by
      have htn2 := Int.self_le_toNat (yR * yR * xR)
      push_cast
      nlinarith)
  have hL1 : loop1F (xR * xR) (yR * yR) (4 * (xR * xR)) ((xR * xR * yR).toNat + 2) 0 yR
      (2 * (yR * yR) + xR * xR * (1 - 2 * yR)) = some ((0, yR) :: l1) := by
    have hstep : (xR * xR * yR).toNat + 2 = ((xR * xR * yR).toNat + 1) + 1 := rfl
    rw [hstep,
      loop1F_succ _ _ _ _ _ _ _ (by nlinarith : yR * yR * 0 ≤ xR * xR * yR), hl1]
    rfl
  refine ⟨(l1 ++ l2).flatMap (fun q => addPoint cx cy q.1 q.2), ?_⟩
  unfold ellipsePointsCore
  rw [hL1, hl2]
  simp [addPoint]

/-- C2 counterexample: the point list of the 4x4 box at (0, 0) is not
invariant under reflection across the vertical center line of the bounding
box (which maps pixel column `i` to `2*left + width - 1 - i = 3 - i`): the
list contains (0, 1) but not (3, 1). -/
theorem C2_box_center_reflection_fails :
    ellipsePoints 0 0 4 4 =
      some [⟨2, 4⟩, ⟨2, 0⟩, ⟨2, 4⟩, ⟨2, 0⟩, ⟨3, 4⟩, ⟨3, 0⟩, ⟨1, 4⟩, ⟨1, 0⟩,
        ⟨4, 2⟩, ⟨4, 2⟩, ⟨0, 2⟩, ⟨0, 2⟩, ⟨4, 3⟩, ⟨4, 1⟩, ⟨0, 3⟩, ⟨0, 1⟩] ∧
    (⟨0, 1⟩ : point) ∈
      [⟨2, 4⟩, ⟨2, 0⟩, ⟨2, 4⟩, ⟨2, 0⟩, ⟨3, 4⟩, ⟨3, 0⟩, ⟨1, 4⟩, ⟨1, 0⟩,
        ⟨4, 2⟩, ⟨4, 2⟩, ⟨0, 2⟩, ⟨0, 2⟩, ⟨4, 3⟩, ⟨4, 1⟩, ⟨0, 3⟩, ⟨0, 1⟩] ∧
    (⟨2 * 0 + 4 - 1 - 0, 1⟩ : point) ∉
      ([⟨2, 4⟩, ⟨2, 0⟩, ⟨2, 4⟩, ⟨2, 0⟩, ⟨3, 4⟩, ⟨3, 0⟩, ⟨1, 4⟩, ⟨1, 0⟩,
        ⟨4, 2⟩, ⟨4, 2⟩, ⟨0, 2⟩, ⟨0, 2⟩, ⟨4, 3⟩, ⟨4, 1⟩, ⟨0, 3⟩, ⟨0, 1⟩] : List point) := by
  decide

/-- C2 (amended): the point list returned by `ellipsePoints` is invariant
under reflection across the horizontal and the vertical line through the
center pixel `(left + width/2, top + height/2)` (Go division).  For odd
dimensions this is the box's center line; for even dimensions the axis sits
half a pixel off the box center, so the claim as stated fails (see the
counterexample). -/
theorem C2_symmetric_about_center_pixel
    (left top width height : Int) (pts : List point) (p : point)
    (hE : ellipsePoints left top width height = some pts) (hp : p ∈ pts) :
    (⟨2 * (left + goDiv width 2) - p.x, p.y⟩ : point) ∈ pts ∧
    (⟨p.x, 2 * (top + goDiv height 2) - p.y⟩ : point) ∈ pts := by
  unfold ellipsePoints at hE
  split_ifs at hE with h1 h2
  · cases hE
    simp at hp
  · obtain ⟨hw, hh⟩ := h2
    subst hw
    subst hh
    cases hE
    have hg : goDiv 1 2 = 0 := by decide
    simp only [List.mem_cons, List.not_mem_nil, or_false] at hp
    rcases hp with hp | hp <;> subst hp <;>
      exact ⟨by simp [hg, point.mk.injEq]; omega, by simp [hg, point.mk.injEq]; omega⟩
  · exact ellipsePointsCore_symmetric hE hp

/-- C2 witness: the amended symmetry at the 3x3 box at (0, 0) for the
member point (2, 1). -/
theorem C2_symmetric_about_center_pixel_witness :
    (⟨2 * (0 + goDiv 3 2) - 2, 1⟩ : point) ∈
      ([⟨1, 2⟩, ⟨1, 0⟩, ⟨1, 2⟩, ⟨1, 0⟩, ⟨2, 1⟩, ⟨2, 1⟩, ⟨0, 1⟩, ⟨0, 1⟩] : List point) ∧
    (⟨2, 2 * (0 + goDiv 3 2) - 1⟩ : point) ∈
      ([⟨1, 2⟩, ⟨1, 0⟩, ⟨1, 2⟩, ⟨1, 0⟩, ⟨2, 1⟩, ⟨2, 1⟩, ⟨0, 1⟩, ⟨0, 1⟩] : List point) :=
  C2_symmetric_about_center_pixel 0 0 3 3
    [⟨1, 2⟩, ⟨1, 0⟩, ⟨1, 2⟩, ⟨1, 0⟩, ⟨2, 1⟩, ⟨2, 1⟩, ⟨0, 1⟩, ⟨0, 1⟩]
    ⟨2, 1⟩ (by decide) (by decide)

/-- C7: for every `left` and `top`, the outline rasterizer applied to a 1x1
bounding box returns exactly the single point `(left, top)` as a duplicated
coordinate pair: `ellipsePoints(left, top, 1, 1) = [(left, top), (left, top)]`
(`draw/window_draw.go:56-58`). -/
theorem C7_one_by_one_duplicated_point (left top : Int) :
    ellipsePoints left top 1 1 = some [⟨left, top⟩, ⟨left, top⟩] := by
  simp [ellipsePoints]

/-- C4 counterexample: the claim says every `width ≤ 0` yields an empty
result, but `ellipsePoints` in `draw/window_draw.go` guards only
`width == 0 || height == 0`, so the negative width `-2` produces four points;
likewise `DrawEllipse(0, 0, 0, 1)` hits the `height == 1` branch first and
issues a line instead of painting nothing. -/
theorem C4_negative_size_not_empty :
    ellipsePoints 5 5 (-2) 5 = some [⟨4, 9⟩, ⟨4, 5⟩, ⟨4, 9⟩, ⟨4, 5⟩] ∧
    ellipsePoints 5 5 (-2) 5 ≠ some [] ∧
    DrawEllipse 0 0 0 1 = some [cmd.line 0 0 (-1) 0] := by decide

/-- C4 (amended): `ellipsePoints` returns the empty list when `width == 0` or
`height == 0` (the guard the code actually has), and `DrawEllipse` then
issues no primitive provided neither dimension is 1 (the width/height 1
branches issue a line before the size guard is consulted). -/
theorem C4_zero_size_empty (left top width height : Int)
    (h : width = 0 ∨ height = 0) :
    ellipsePoints left top width height = some [] ∧
    (width ≠ 1 → height ≠ 1 → DrawEllipse left top width height = some []) := by
  have h0 : ellipsePoints left top width height = some [] := by
    unfold ellipsePoints
    rw [if_pos h]
  refine ⟨h0, fun hw hh => ?_⟩
  unfold DrawEllipse
  rw [if_neg hw, if_neg hh, h0]
  rfl

/-- C4 witness: the amended claim at the concrete box (5, 5, 0, 5). -/
theorem C4_zero_size_empty_witness :
    ellipsePoints 5 5 0 5 = some [] ∧ DrawEllipse 5 5 0 5 = some [] := by
  have h := C4_zero_size_empty 5 5 0 5 (Or.inl rfl)
  exact ⟨h.1, h.2 (by decide) (by decide)⟩

/-- C5: the claim that `ellipsePoints` terminates on every integer input is
wrong: when `width ∈ {-1, 1}` and `height ∈ {-1, 1}` (excluding the guarded
1x1 case), both Go radii truncate to 0, so `a2 = b2 = 0` and the first
loop's guard `b2*x <= a2*y` reads `0 <= 0` forever — the loop never exits,
whatever the fuel.  Consequently the model returns `none` on such boxes. -/
theorem C5_loop_never_terminates_on_unit_negative_box :
    (∀ (fuel : Nat) (x y sigma : Int), loop1F 0 0 0 fuel x y sigma = none) ∧
    ellipsePoints 0 0 1 (-1) = none ∧ ellipsePoints 0 0 (-1) (-1) = none := by
  refine ⟨?_, by decide, by decide⟩
  intro fuel
  induction fuel with
  | zero => intro x y sigma; simp [loop1F]
  | succ n ih => intro x y sigma; simp [loop1F, ih]

/-- C6: a bounding box of width 1 (height ≥ 2) degenerates to the vertical
line from `(x, y)` to `(x, y+height-1)`, and a box of height 1 (width ≥ 2)
to the horizontal line from `(x, y)` to `(x+width-1, y)`, both in the SDL
`DrawEllipse` (`draw/window_draw.go:36-43`) and in the Direct3D9 `ellipse`
(part_001:757-764). -/
theorem C6_degenerate_line (x y n : Int) (hn : 2 ≤ n) :
    DrawEllipse x y 1 n = some [cmd.line x y x (y + n - 1)] ∧
    DrawEllipse x y n 1 = some [cmd.line x y (x + n - 1) y] ∧
    d3d9Ellipse x y 1 n = some [cmd.line x y x (y + n - 1)] ∧
    d3d9Ellipse x y n 1 = some [cmd.line x y (x + n - 1) y] := by
  have h1 : n ≠ 1 := by omega
  refine ⟨by simp [DrawEllipse], by simp [DrawEllipse, h1], ?_, ?_⟩
  · unfold d3d9Ellipse
    rw [if_neg (by omega), if_neg (by omega), if_pos rfl]
  · unfold d3d9Ellipse
    rw [if_neg (by omega), if_neg (by omega), if_neg h1, if_pos rfl]

/-- C9 counterexample: for the 3x3 box at (1, 2) — a box with
`width, height ≥ 2` — the returned list repeats the axis extreme points
(2, 4), (2, 2) and also both horizontal extrema (3, 3), (1, 3): it is not
duplicate-free, contradicting the claim that no pixel coordinate occurs
twice.  The duplicates are not confined to the axis extrema either: for the
6x6 box at (0, 0) both loops emit the diagonal offset (2, 2) (their
non-strict guards both hold at the diagonal), so the non-extremal points
(5, 5) and (1, 1) each occur twice as well. -/
theorem C9_three_by_three_duplicates :
    ellipsePoints 1 2 3 3 =
      some [⟨2, 4⟩, ⟨2, 2⟩, ⟨2, 4⟩, ⟨2, 2⟩, ⟨3, 3⟩, ⟨3, 3⟩, ⟨1, 3⟩, ⟨1, 3⟩] ∧
    ¬ ([⟨2, 4⟩, ⟨2, 2⟩, ⟨2, 4⟩, ⟨2, 2⟩, ⟨3, 3⟩, ⟨3, 3⟩, ⟨1, 3⟩, ⟨1, 3⟩] :
        List point).Nodup ∧
    ((ellipsePoints 0 0 6 6).getD []).count ⟨5, 5⟩ = 2 ∧
    ((ellipsePoints 0 0 6 6).getD []).count ⟨1, 1⟩ = 2 := by
  decide

/-- C9 (amended): for every box with `width ≥ 2` and `height ≥ 2` the outline
list is never duplicate-free: the four-way symmetric emission of the first
loop's first iteration (offset x = 0) appends the top and bottom axis extreme
points `(centerX, centerY ± yRadius)` twice each, as the list's first four
entries.  (The axis extrema need not be the only duplicates: a diagonal
offset satisfying both loops' non-strict guards is emitted by both loops,
see the 6x6 part of the counterexample.) -/
theorem C9_outline_contains_duplicates (left top width height : Int)
    (hw : 2 ≤ width) (hh : 2 ≤ height) :
    ∃ pts, ellipsePoints left top width height = some pts ∧
      pts.take 4 =
        [⟨left + goDiv width 2, top + goDiv height 2 + goDiv height 2⟩,
         ⟨left + goDiv width 2, top + goDiv height 2 - goDiv height 2⟩,
         ⟨left + goDiv width 2, top + goDiv height 2 + goDiv height 2⟩,
         ⟨left + goDiv width 2, top + goDiv height 2 - goDiv height 2⟩] ∧
      ¬ pts.Nodup := by
  have hx := goDiv_two_pos hw
  have hy := goDiv_two_pos hh
  obtain ⟨rest, hrest⟩ :=
    ellipsePointsCore_head (left + goDiv width 2) (top + goDiv height 2) hx hy
  refine ⟨⟨left + goDiv width 2, top + goDiv height 2 + goDiv height 2⟩ ::
      ⟨left + goDiv width 2, top + goDiv height 2 - goDiv height 2⟩ ::
      ⟨left + goDiv width 2, top + goDiv height 2 + goDiv height 2⟩ ::
      ⟨left + goDiv width 2, top + goDiv height 2 - goDiv height 2⟩ :: rest, ?_, rfl, ?_⟩
  · unfold ellipsePoints
    rw [if_neg (by omega), if_neg (by omega)]
    exact hrest
  · intro hnd
    simp [List.nodup_cons] at hnd

/-- C9 witness: the amended claim at the concrete box (0, 0, 4, 4). -/
theorem C9_outline_contains_duplicates_witness :
    ∃ pts, ellipsePoints 0 0 4 4 = some pts ∧
      pts.take 4 =
        [⟨0 + goDiv 4 2, 0 + goDiv 4 2 + goDiv 4 2⟩,
         ⟨0 + goDiv 4 2, 0 + goDiv 4 2 - goDiv 4 2⟩,
         ⟨0 + goDiv 4 2, 0 + goDiv 4 2 + goDiv 4 2⟩,
         ⟨0 + goDiv 4 2, 0 + goDiv 4 2 - goDiv 4 2⟩] ∧
      ¬ pts.Nodup :=
  C9_outline_contains_duplicates 0 0 4 4 (by decide) (by decide)

/-- Consecutive integers `y, y+1, …` of the given length. -/
def intRange (y : Int) : Nat → List Int
  | 0 => []
  | Nat.succ n => y :: intRange (y + 1) n

lemma intRange_mem : ∀ (n : Nat) (y z : Int), z ∈ intRange y n → y ≤ z
  | 0, y, z, h => by simp [intRange] at h
  | n + 1, y, z, h => by
    simp only [intRange, List.mem_cons] at h
    rcases h with h | h
    · omega
    · have := intRange_mem n (y + 1) z h
      omega

lemma intRange_nodup : ∀ (n : Nat) (y : Int), (intRange y n).Nodup
  | 0, y => by simp [intRange]
  | n + 1, y => by
    simp only [intRange, List.nodup_cons]
    refine ⟨fun h => ?_, intRange_nodup n (y + 1)⟩
    have := intRange_mem n (y + 1) y h
    omega

lemma loop2F_succ (a2 b2 fb2 : Int) (fuel : Nat) (x y sigma : Int)
    (hg : a2 * y ≤ b2 * x) :
    loop2F a2 b2 fb2 (fuel + 1) x y sigma =
      Option.map (fun l => (x, y) :: l)
        (loop2F a2 b2 fb2 fuel
          (if 0 ≤ sigma then x - 1 else x) (y + 1)
          ((if 0 ≤ sigma then sigma + fb2 * (1 - x) else sigma) + a2 * (4 * y + 6))) := by
  simp only [loop2F]
  rw [if_pos hg]

lemma loop2F_snds {a2 b2 fb2 : Int} :
    ∀ (fuel : Nat) (x y sigma : Int) (l : List (Int × Int)),
      loop2F a2 b2 fb2 fuel x y sigma = some l →
      l.map Prod.snd = intRange y l.length := by
  intro fuel
  induction fuel with
  | zero =>
    intro x y sigma l h
    simp only [loop2F] at h
    by_cases hg : a2 * y ≤ b2 * x
    · rw [if_pos hg] at h
      exact Option.noConfusion h
    · rw [if_neg hg] at h
      cases h
      simp [intRange]
  | succ n ih =>
    intro x y sigma l h
    by_cases hg : a2 * y ≤ b2 * x
    · rw [loop2F_succ _ _ _ _ _ _ _ hg] at h
      obtain ⟨l', hl', hcons⟩ := Option.map_eq_some'.mp h
      have hsnd := ih _ _ _ _ hl'
      subst hcons
      simp [hsnd, intRange]
    · have hstop : loop2F a2 b2 fb2 (n + 1) x y sigma = some [] := by
        simp only [loop2F]
        rw [if_neg hg]
      rw [hstop] at h
      cases h
      simp [intRange]

/-- C8 counterexample: for the 4x4 box at (0, 0) — `width, height ≥ 2` — the
outline touches scanline y = 4 with three distinct points (1, 4), (2, 4) and
(3, 4) (first-loop emissions at x offsets 0 and 1), so it is false that each
of the left and the right side contributes exactly one point per scanline. -/
theorem C8_first_loop_scanline_overfull :
    ellipsePoints 0 0 4 4 =
      some [⟨2, 4⟩, ⟨2, 0⟩, ⟨2, 4⟩, ⟨2, 0⟩, ⟨3, 4⟩, ⟨3, 0⟩, ⟨1, 4⟩, ⟨1, 0⟩,
        ⟨4, 2⟩, ⟨4, 2⟩, ⟨0, 2⟩, ⟨0, 2⟩, ⟨4, 3⟩, ⟨4, 1⟩, ⟨0, 3⟩, ⟨0, 1⟩] ∧
    (⟨1, 4⟩ : point) ∈
      ([⟨2, 4⟩, ⟨2, 0⟩, ⟨2, 4⟩, ⟨2, 0⟩, ⟨3, 4⟩, ⟨3, 0⟩, ⟨1, 4⟩, ⟨1, 0⟩,
        ⟨4, 2⟩, ⟨4, 2⟩, ⟨0, 2⟩, ⟨0, 2⟩, ⟨4, 3⟩, ⟨4, 1⟩, ⟨0, 3⟩, ⟨0, 1⟩] : List point) ∧
    (⟨2, 4⟩ : point) ∈
      ([⟨2, 4⟩, ⟨2, 0⟩, ⟨2, 4⟩, ⟨2, 0⟩, ⟨3, 4⟩, ⟨3, 0⟩, ⟨1, 4⟩, ⟨1, 0⟩,
        ⟨4, 2⟩, ⟨4, 2⟩, ⟨0, 2⟩, ⟨0, 2⟩, ⟨4, 3⟩, ⟨4, 1⟩, ⟨0, 3⟩, ⟨0, 1⟩] : List point) ∧
    (⟨3, 4⟩ : point) ∈
      ([⟨2, 4⟩, ⟨2, 0⟩, ⟨2, 4⟩, ⟨2, 0⟩, ⟨3, 4⟩, ⟨3, 0⟩, ⟨1, 4⟩, ⟨1, 0⟩,
        ⟨4, 2⟩, ⟨4, 2⟩, ⟨0, 2⟩, ⟨0, 2⟩, ⟨4, 3⟩, ⟨4, 1⟩, ⟨0, 3⟩, ⟨0, 1⟩] : List point) := by
  decide

/-- C8 (amended): every iteration of the rasterizer's two loops contributes
one symmetric point quadruple.  The second loop (`draw/window_draw.go:86-93`)
advances one scanline per iteration: the y offsets it emits form the
consecutive run `y, y+1, …` and are pairwise distinct, so within its region
each side receives exactly one point per scanline.  The first loop advances
one column per iteration and can emit several points per side on one
scanline (see the counterexample). -/
theorem C8_second_loop_one_point_per_scanline (a2 b2 fb2 : Int) (fuel : Nat)
    (x y sigma : Int) (l : List (Int × Int))
    (h : loop2F a2 b2 fb2 fuel x y sigma = some l) :
    l.map Prod.snd = intRange y l.length ∧ (l.map Prod.snd).Nodup := by
  have hs := loop2F_snds fuel x y sigma l h
  exact ⟨hs, hs ▸ intRange_nodup l.length y⟩

/-- C8 witness: the second-loop emissions of the 4x4 box (a2 = b2 = 4,
fb2 = 16, starting at x = xRadius = 2, y = 0, sigma = -4). -/
theorem C8_second_loop_one_point_per_scanline_witness :
    ([((2 : Int), (0 : Int)), (2, 1)].map Prod.snd =
      intRange 0 [((2 : Int), (0 : Int)), (2, 1)].length) ∧
    ([((2 : Int), (0 : Int)), (2, 1)].map Prod.snd).Nodup :=
  C8_second_loop_one_point_per_scanline 4 4 16 5 2 0 (-4) [(2, 0), (2, 1)] (by decide)

/-- C6 witness: the degenerate-line behavior at the concrete box size 3. -/
theorem C6_degenerate_line_witness :
    DrawEllipse 7 8 1 3 = some [cmd.line 7 8 7 (8 + 3 - 1)] ∧
    DrawEllipse 7 8 3 1 = some [cmd.line 7 8 (7 + 3 - 1) 8] ∧
    d3d9Ellipse 7 8 1 3 = some [cmd.line 7 8 7 (8 + 3 - 1)] ∧
    d3d9Ellipse 7 8 3 1 = some [cmd.line 7 8 (7 + 3 - 1) 8] :=
  C6_degenerate_line 7 8 3 (by decide)

/-- Modelled from the spec: part of the shared scanline ellipse rasterizer
(`ellipseOutline` / `ellipseArea`), whose defining file is not under `src/`
(only its callers in `draw/window_windows.go`, `draw/window_wasm.go`,
part_000 and part_010 are).  A pixel `(i, j)` lies inside the ellipse
inscribed in the bounding box iff its doubled offset from the box center
satisfies the integer ellipse inequality. -/
def insideEllipse (left top width height i j : Int) : Bool :=
  decide ((2 * i - (2 * left + width - 1)) ^ 2 * height ^ 2 +
      (2 * j - (2 * top + height - 1)) ^ 2 * width ^ 2 ≤ width ^ 2 * height ^ 2)

/-- Modelled from the spec: the inside pixels of one scanline of the box, in
increasing column order. -/
def rowInside (left top width height j : Int) : List Int :=
  ((List.range width.toNat).map (fun k => left + (k : Int))).filter
    (fun i => insideEllipse left top width height i j)

/-- Modelled from the spec: the leftmost and rightmost inside pixel of one
scanline, if the scanline meets the ellipse. -/
def rowSpan (left top width height j : Int) : Option (Int × Int) :=
  match rowInside left top width height j with
  | [] => none
  | x :: xs => some (xs.foldl min x, xs.foldl max x)

/-- Modelled from the spec: the (left point, right point) contribution of one
scanline, or nothing when the scanline misses the ellipse. -/
def rowPair (left top width height j : Int) : List point :=
  match rowSpan left top width height j with
  | some (a, b) => [⟨a, j⟩, ⟨b, j⟩]
  | none => []

/-- Modelled from the spec: the scanlines of the bounding box, top to
bottom. -/
def scanRows (top height : Int) : List Int :=
  (List.range height.toNat).map (fun r => top + (r : Int))

/-- Modelled from the spec: `ellipseOutline` (file not under `src/`; called
by `DrawEllipse` in `draw/window_windows.go:684` and
`draw/window_wasm.go:584`): the one-pixel-wide ellipse outline, one left and
one right point per scanline, symmetric across both axes; `width ≤ 0` or
`height ≤ 0` yields the empty list and a 1x1 box yields its single point as
a duplicated coordinate pair. -/
def ellipseOutline (left top width height : Int) : List point :=
  (scanRows top height).flatMap (rowPair left top width height)

/-- Modelled from the spec: `ellipseArea` (file not under `src/`; called by
`FillEllipse` in `draw/window_windows.go:698` and
`draw/window_wasm.go:601`): the ordered list of point pairs, each pair being
the left/right endpoints of one horizontal fill scanline. -/
def ellipseArea (left top width height : Int) : List point :=
  (scanRows top height).flatMap (rowPair left top width height)

/-- Pixels painted by the span-consuming loop of the wasm `FillEllipse`
(`draw/window_wasm.go:607-611`): for each successive pair (start, end) it
calls `fillRect(start.x, start.y, end.x-start.x+1, 1)`, painting row
`start.y` from column `start.x` through column `end.x`. -/
def fillPaints : List point → Int → Int → Bool
  | p :: q :: rest, i, j =>
    (decide (j = p.y) && decide (p.x ≤ i) && decide (i ≤ q.x)) || fillPaints rest i j
  | _, _, _ => false

/-- A pixel is enclosed by an outline when it lies on or between two outline
points of its scanline — the outline points together with all pixels inside
them. -/
def enclosedByOutline (outline : List point) (i j : Int) : Bool :=
  outline.any (fun p => outline.any (fun q =>
    decide (p.y = j) && decide (q.y = j) && decide (p.x ≤ i) && decide (i ≤ q.x)))

/-- Fill-span pair structure: even length, and each consecutive pair lies on
one scanline, ordered left to right. -/
def Paired : List point → Prop
  | [] => True
  | [_] => False
  | p :: q :: rest => p.y = q.y ∧ p.x ≤ q.x ∧ Paired rest

lemma foldl_min_le_init : ∀ (xs : List Int) (x : Int), xs.foldl min x ≤ x
  | [], x => le_refl x
  | y :: xs, x => le_trans (foldl_min_le_init xs (min x y)) (min_le_left x y)

lemma init_le_foldl_max : ∀ (xs : List Int) (x : Int), x ≤ xs.foldl max x
  | [], x => le_refl x
  | y :: xs, x => le_trans (le_max_left x y) (init_le_foldl_max xs (max x y))

lemma rowSpan_le {left top width height j a b : Int}
    (h : rowSpan left top width height j = some (a, b)) : a ≤ b := by
  unfold rowSpan at h
  cases hr : rowInside left top width height j with
  | nil =>
    rw [hr] at h
    exact Option.noConfusion h
  | cons x xs =>
    rw [hr] at h
    cases h
    exact le_trans (foldl_min_le_init xs x) (init_le_foldl_max xs x)

lemma mem_rowPair {left top width height j : Int} {p : point}
    (h : p ∈ rowPair left top width height j) :
    ∃ a b, rowSpan left top width height j = some (a, b) ∧
      (p = ⟨a, j⟩ ∨ p = ⟨b, j⟩) := by
  rcases hs : rowSpan left top width height j with _ | ⟨a, b⟩
  · simp [rowPair, hs] at h
  · refine ⟨a, b, rfl, ?_⟩
    simpa [rowPair, hs] using h

/-- One horizontal span of a row hits pixel `(i, j)`. -/
def spanHit (left top width height j0 i j : Int) : Prop :=
  ∃ a b, rowSpan left top width height j0 = some (a, b) ∧ j = j0 ∧ a ≤ i ∧ i ≤ b

lemma fillPaints_rows (left top width height i j : Int) (rows : List Int) :
    fillPaints (rows.flatMap (rowPair left top width height)) i j = true ↔
      ∃ j0 ∈ rows, spanHit left top width height j0 i j := by
  induction rows with
  | nil => simp [fillPaints]
  | cons j0 rows ih =>
    rcases hs : rowSpan left top width height j0 with _ | ⟨a, b⟩
    · have hrp : rowPair left top width height j0 = [] := by simp [rowPair, hs]
      rw [List.flatMap_cons, hrp, List.nil_append, ih]
      constructor
      · rintro ⟨j1, hj1, hhit⟩
        exact ⟨j1, List.mem_cons_of_mem _ hj1, hhit⟩
      · rintro ⟨j1, hj1, hhit⟩
        rcases List.mem_cons.mp hj1 with rfl | hj1
        · obtain ⟨a, b, hab, _⟩ := hhit
          rw [hs] at hab
          exact Option.noConfusion hab
        · exact ⟨j1, hj1, hhit⟩
    · have hrp : rowPair left top width height j0 = [⟨a, j0⟩, ⟨b, j0⟩] := by
        simp [rowPair, hs]
      rw [List.flatMap_cons, hrp, List.cons_append, List.cons_append, List.nil_append]
      simp only [fillPaints, Bool.or_eq_true, Bool.and_eq_true, decide_eq_true_eq, ih]
      constructor
      · rintro (⟨⟨hj, ha⟩, hb⟩ | ⟨j1, hj1, hhit⟩)
        · exact ⟨j0, List.mem_cons_self _ _, a, b, hs, hj, ha, hb⟩
        · exact ⟨j1, List.mem_cons_of_mem _ hj1, hhit⟩
      · rintro ⟨j1, hj1, a', b', hab, hj, ha, hb⟩
        rcases List.mem_cons.mp hj1 with rfl | hj1
        · rw [hs] at hab
          cases hab
          exact Or.inl ⟨⟨hj, ha⟩, hb⟩
        · exact Or.inr ⟨j1, hj1, a', b', hab, hj, ha, hb⟩

lemma enclosed_iff (outline : List point) (i j : Int) :
    enclosedByOutline outline i j = true ↔
      ∃ p ∈ outline, ∃ q ∈ outline, p.y = j ∧ q.y = j ∧ p.x ≤ i ∧ i ≤ q.x := by
  simp only [enclosedByOutline, List.any_eq_true, Bool.and_eq_true, decide_eq_true_eq]
  constructor
  · rintro ⟨p, hp, q, hq, ⟨⟨h1, h2⟩, h3⟩, h4⟩
    exact ⟨p, hp, q, hq, h1, h2, h3, h4⟩
  · rintro ⟨p, hp, q, hq, h1, h2, h3, h4⟩
    exact ⟨p, hp, q, hq, ⟨⟨h1, h2⟩, h3⟩, h4⟩

/-- C3: for every bounding box, the union of pixels covered by the
horizontal scanline spans drawn by `FillEllipse` over `ellipseArea` equals
exactly the area enclosed by the `ellipseOutline` that `DrawEllipse` paints:
the outline points together with all pixels between two outline points of
the same scanline. -/
theorem C3_fill_union_eq_enclosed_outline (left top width height i j : Int) :
    fillPaints (ellipseArea left top width height) i j = true ↔
      enclosedByOutline (ellipseOutline left top width height) i j = true := by
  unfold ellipseArea ellipseOutline
  rw [fillPaints_rows, enclosed_iff]
  constructor
  · rintro ⟨j0, hj0, a, b, hab, rfl, ha, hb⟩
    refine ⟨⟨a, j⟩, ?_, ⟨b, j⟩, ?_, rfl, rfl, ha, hb⟩
    · exact List.mem_flatMap.mpr ⟨j, hj0, by simp [rowPair, hab]⟩
    · exact List.mem_flatMap.mpr ⟨j, hj0, by simp [rowPair, hab]⟩
  · rintro ⟨p, hp, q, hq, hpy, hqy, hpx, hqx⟩
    obtain ⟨j1, hj1, hpmem⟩ := List.mem_flatMap.mp hp
    obtain ⟨j2, hj2, hqmem⟩ := List.mem_flatMap.mp hq
    obtain ⟨a1, b1, hab1, hp1⟩ := mem_rowPair hpmem
    obtain ⟨a2, b2, hab2, hq1⟩ := mem_rowPair hqmem
    have hj1j : j1 = j := by rcases hp1 with rfl | rfl <;> simpa using hpy
    have hj2j : j2 = j := by rcases hq1 with rfl | rfl <;> simpa using hqy
    rw [hj2j.trans hj1j.symm, hab1] at hab2
    cases hab2
    have hle := rowSpan_le hab1
    refine ⟨j1, hj1, a1, b1, hab1, hj1j.symm, ?_, ?_⟩
    · rcases hp1 with rfl | rfl
      · simpa using hpx
      · have hb1i : b1 ≤ i := by simpa using hpx
        linarith
    · rcases hq1 with rfl | rfl
      · have hia1 : i ≤ a1 := by simpa using hqx
        linarith
      · simpa using hqx

lemma Paired_append_rowPair {left top width height j : Int} {rest : List point}
    (h : Paired rest) : Paired (rowPair left top width height j ++ rest) := by
  rcases hs : rowSpan left top width height j with _ | ⟨a, b⟩
  · simpa [rowPair, hs] using h
  · have hle := rowSpan_le hs
    simp only [rowPair, hs, List.cons_append, List.nil_append]
    exact ⟨rfl, hle, h⟩

lemma Paired_flatMap (left top width height : Int) :
    ∀ rows : List Int, Paired (rows.flatMap (rowPair left top width height))
  | [] => trivial
  | j0 :: rows => by
    rw [List.flatMap_cons]
    exact Paired_append_rowPair (Paired_flatMap left top width height rows)

lemma Paired.length_even : ∀ {l : List point}, Paired l → l.length % 2 = 0
  | [], _ => rfl
  | [_], h => False.elim h
  | _ :: _ :: rest, h => by
    have := Paired.length_even h.2.2
    simp only [List.length_cons]
    omega

/-- C10: for every bounding box with positive width and height, the point
list `FillEllipse` consumes (`ellipseArea`) has even length, and every
consecutive pair at positions (2i, 2i+1) lies on one horizontal scanline
with the first point's x coordinate not greater than the second's — each
pair being the left/right endpoints of one horizontal fill span. -/
theorem C10_area_pairs (left top width height : Int)
    (_hw : 0 < width) (_hh : 0 < height) :
    Paired (ellipseArea left top width height) ∧
    (ellipseArea left top width height).length % 2 = 0 := by
  have hp : Paired (ellipseArea left top width height) :=
    Paired_flatMap left top width height (scanRows top height)
  exact ⟨hp, hp.length_even⟩

/-- C10 witness: the span-pair structure of the 3x3 box at (0, 0). -/
theorem C10_area_pairs_witness :
    Paired (ellipseArea 0 0 3 3) ∧ (ellipseArea 0 0 3 3).length % 2 = 0 :=
  C10_area_pairs 0 0 3 3 (by decide) (by decide)

end Prototype
